import Mathlib

/-!
Verification of the tile-based image resampling engine in
`src/GafferImage/Resample.cpp`.

Machine floating point is modelled by exact rationals (`ℚ`), Imath
vectors and boxes by component records, and the external OIIO filter
registry by an explicit descriptor table.  Fallible operations
(`createFilter`, which throws on an unknown filter name) are modelled
with `Except`.  The tile size (`ImagePlug::tileSize()`, external to the
shown source) is a parameter `S` of every tile-level operation.
-/

namespace GafferImage

/-- Imath::V2 — a two-component vector. -/
structure V2 (α : Type) where
  x : α
  y : α
deriving DecidableEq, Repr

/-- Imath::Box2 — an axis-aligned box given by min/max corners. -/
structure Box2 (α : Type) where
  min : V2 α
  max : V2 α
deriving DecidableEq, Repr

/-- Pass bitmask value `Horizontal = 1` from `enum Passes`. -/
def Horizontal : ℕ := 1

/-- Pass bitmask value `Vertical = 2` from `enum Passes`. -/
def Vertical : ℕ := 2

/-- Pass bitmask value `Both = Horizontal | Vertical` from `enum Passes`. -/
def Both : ℕ := Horizontal ||| Vertical

/-- Resample debug modes (`Off`, `HorizontalPass`, `SinglePass`), the
values of the `debug` plug (declared in the header, used by the shown
source). -/
inductive DebugMode
  | off
  | horizontalPass
  | singlePass
deriving DecidableEq, Repr

/-- `requiredPasses` from Resample.cpp: which filter pass(es) a given
output plug needs.  `parentIsMain` models the test
`image == image->parent<ImageNode>()->outPlug()`; `separable` models
`filter->separable()`. -/
def requiredPasses (debug : DebugMode) (parentIsMain : Bool) (separable : Bool) : ℕ :=
  if debug = .horizontalPass then Horizontal
  else if debug = .singlePass then Horizontal ||| Vertical
  else if parentIsMain then (if separable then Vertical else Both)
  else Horizontal

/-- `box2fToBox2i` from Resample.cpp: rounds min down and max up while
converting from float to int. -/
def box2fToBox2i (b : Box2 ℚ) : Box2 ℤ :=
  ⟨⟨⌊b.min.x⌋, ⌊b.min.y⌋⟩, ⟨⌈b.max.x⌉, ⌈b.max.y⌉⟩⟩

/-- `dstDataWindow.size() + V2i( 1 )` — Imath box size (max − min) plus one,
per axis, as float. -/
def dstWindowSize (b : Box2 ℚ) : V2 ℚ :=
  ⟨b.max.x - b.min.x + 1, b.max.y - b.min.y + 1⟩

/-- `srcDataWindow.size() + V2i( 1 )` — integer box size (max − min) plus
one, per axis, converted to float. -/
def srcWindowSize (b : Box2 ℤ) : V2 ℚ :=
  ⟨((b.max.x - b.min.x : ℤ) : ℚ) + 1, ((b.max.y - b.min.y : ℤ) : ℚ) + 1⟩

/-- `ratioAndOffset` from Resample.cpp: the scale and offset converting
output coordinates to input coordinates.  The source performs the
divisions unguarded — there is no zero-size check and no error path, so
a zero-size window reaches the division directly (IEEE ∞/NaN in the
C++ floats; in this exact model the total rational division). -/
def ratioAndOffset (dst : Box2 ℚ) (src : Box2 ℤ) : V2 ℚ × V2 ℚ :=
  let dstSize := dstWindowSize dst
  let srcSize := srcWindowSize src
  let ratio : V2 ℚ := ⟨dstSize.x / srcSize.x, dstSize.y / srcSize.y⟩
  let offset : V2 ℚ :=
    ⟨(src.min.x : ℚ) - dst.min.x / ratio.x, (src.min.y : ℚ) - dst.min.y / ratio.y⟩
  (ratio, offset)

/-- `inputRegion` from Resample.cpp: the input region that will need to be
sampled when generating a given output tile.  `S` is the tile size. -/
def inputRegion (S : ℕ) (tileOrigin : V2 ℤ) (passes : ℕ) (ratio offset : V2 ℚ)
    (filterWidth filterHeight : ℚ) : Box2 ℤ :=
  let minx : ℚ := (tileOrigin.x : ℚ)
  let miny : ℚ := (tileOrigin.y : ℚ)
  let maxx : ℚ := (tileOrigin.x : ℚ) + (S : ℚ)
  let maxy : ℚ := (tileOrigin.y : ℚ) + (S : ℚ)
  let frx : ℚ := filterWidth / 2
  let fry : ℚ := filterHeight / 2
  let minx' := if passes &&& Horizontal ≠ 0 then minx / ratio.x + offset.x - frx else minx
  let maxx' := if passes &&& Horizontal ≠ 0 then maxx / ratio.x + offset.x + frx else maxx
  let miny' := if passes &&& Vertical ≠ 0 then miny / ratio.y + offset.y - fry else miny
  let maxy' := if passes &&& Vertical ≠ 0 then maxy / ratio.y + offset.y + fry else maxy
  box2fToBox2i ⟨⟨minx', miny'⟩, ⟨maxx', maxy'⟩⟩

/-- Modelled from the spec: one entry of the external OIIO filter
registry (`OIIO::FilterDesc`): name, natural recommended width and the
separability flag.  The registry itself is library code outside src/. -/
structure FilterDesc where
  name : String
  width : ℚ
  separable : Bool
deriving DecidableEq, Repr

/-- The identity-relevant data of a constructed `OIIO::Filter2D`:
its name and the width/height it was created with, plus the
separability flag carried over from its descriptor. -/
structure Filter2D where
  name : String
  width : ℚ
  height : ℚ
  separable : Bool
deriving DecidableEq, Repr

/-- Modelled from the spec: a concrete excerpt of the external OIIO
filter registry table (names, natural widths, separability), used to
instantiate theorems at the registry entries the source refers to. -/
def oiioFilters : List FilterDesc :=
  [⟨"box", 1, true⟩, ⟨"triangle", 2, true⟩, ⟨"gaussian", 3, true⟩,
   ⟨"catmull-rom", 4, true⟩, ⟨"blackman-harris", 3, true⟩,
   ⟨"lanczos3", 6, true⟩, ⟨"radial-lanczos3", 6, false⟩, ⟨"disk", 1, false⟩]

/-- The local variable `filterName` of `createFilter`: an empty name
resolves to the upsizing default `"blackman-harris"` when either axis
ratio exceeds 1 and to the downsizing default `"lanczos3"` otherwise. -/
def resolvedFilterName (name : String) (ratio : V2 ℚ) : String :=
  if name = "" then
    (if 1 < ratio.x ∨ 1 < ratio.y then "blackman-harris" else "lanczos3")
  else name

/-- `createFilter` from Resample.cpp: resolves an empty name to a default
kernel from the ratio, looks the name up in the registry table, and
constructs the filter with either the explicitly requested per-axis
width or the natural width scaled by `max(1, ratio)`; an unknown name
throws. -/
def createFilter (table : List FilterDesc) (name : String) (filterWidth ratio : V2 ℚ) :
    Except String Filter2D :=
  match table.find? (fun fd => fd.name == resolvedFilterName name ratio) with
  | some fd =>
      .ok ⟨resolvedFilterName name ratio,
        (if 0 < filterWidth.x then filterWidth.x else fd.width * max 1 ratio.x),
        (if 0 < filterWidth.y then filterWidth.y else fd.width * max 1 ratio.y),
        fd.separable⟩
  | none => .error ("Unknown filter " ++ resolvedFilterName name ratio)

/-!  The evaluation machinery of `Resample::computeChannelData`. -/

/-- Modelled from the spec: the evaluation interface of an
`OIIO::Filter2D` object (external library code) — width/height support
sizes, the combined 2D evaluation `operator()`, and the separable 1D
evaluations `xfilt`/`yfilt`. -/
structure Kernel where
  width : ℚ
  height : ℚ
  eval2 : ℚ → ℚ → ℚ
  xfilt : ℚ → ℚ
  yfilt : ℚ → ℚ

/-- `filterRadius.x = ceilf( filter->width() / ( 2.0f * ratio.x ) )`. -/
def xRadius (k : Kernel) (rx : ℚ) : ℤ := ⌈k.width / (2 * rx)⌉

/-- `filterRadius.y = ceilf( filter->height() / ( 2.0f * ratio.y ) )`. -/
def yRadius (k : Kernel) (ry : ℚ) : ℤ := ⌈k.height / (2 * ry)⌉

/-- The integer loop range `[-filterRadius, filterRadius]` of the filter
position loops, as a list in loop order. -/
def tapList (R : ℤ) : List ℤ := (List.range (2 * R + 1).toNat).map (fun (i : ℕ) => -R + (i : ℤ))

/-- The continuous input position `( o + 0.5 ) / ratio + offset` of an
output pixel (pixel-center convention). -/
def srcPos (r off : ℚ) (o : ℤ) : ℚ := ((o : ℚ) + 1/2) / r + off

/-- The integer part produced by `OIIO::floorfrac` at `srcPos`
(`iPI` / `iXI` / `iYI` in the source). -/
def posBase (r off : ℚ) (o : ℤ) : ℤ := ⌊srcPos r off o⌋

/-- The filter argument `ratio * ( f - ( iPF - 0.5 ) )` on one axis,
where `iPF` is the fractional part from `floorfrac`. -/
def filterArg (r off : ℚ) (o f : ℤ) : ℚ :=
  r * ((f : ℚ) - (Int.fract (srcPos r off o) - 1/2))

/-- The weight `filter->xfilt( ratio.x * ( fX - ( iXF - 0.5 ) ) )` of one
horizontal tap. -/
def xWeight (k : Kernel) (rx offx : ℚ) (ox fx : ℤ) : ℚ := k.xfilt (filterArg rx offx ox fx)

/-- The weight `filter->yfilt( ratio.y * ( fY - ( iYF - 0.5 ) ) )` of one
vertical tap. -/
def yWeight (k : Kernel) (ry offy : ℚ) (oy fy : ℤ) : ℚ := k.yfilt (filterArg ry offy oy fy)

/-- The weight `(*filter)( ... , ... )` of one combined-pass tap. -/
def bothWeight (k : Kernel) (ratio offset : V2 ℚ) (ox oy fx fy : ℤ) : ℚ :=
  k.eval2 (filterArg ratio.x offset.x ox fx) (filterArg ratio.y offset.y oy fy)

/-- The accumulator loop of the `Horizontal` branch for one output pixel:
folds `v += w * sampler.sample( iXI + fX, oP.y ); totalW += w` over the
tap range, skipping zero weights (`continue`). -/
def accH (k : Kernel) (rx offx : ℚ) (s : ℤ → ℤ → ℚ) (ox oy : ℤ) : ℚ × ℚ :=
  (tapList (xRadius k rx)).foldl
    (fun a fX =>
      if xWeight k rx offx ox fX = 0 then a
      else (a.1 + xWeight k rx offx ox fX * s (posBase rx offx ox + fX) oy,
            a.2 + xWeight k rx offx ox fX))
    (0, 0)

/-- The accumulator loop of the `Vertical` branch for one output pixel:
folds `v += w * sampler.sample( oP.x, iYI + fY ); totalW += w` over the
tap range, skipping zero weights. -/
def accV (k : Kernel) (ry offy : ℚ) (s : ℤ → ℤ → ℚ) (ox oy : ℤ) : ℚ × ℚ :=
  (tapList (yRadius k ry)).foldl
    (fun a fY =>
      if yWeight k ry offy oy fY = 0 then a
      else (a.1 + yWeight k ry offy oy fY * s ox (posBase ry offy oy + fY),
            a.2 + yWeight k ry offy oy fY))
    (0, 0)

/-- The double accumulator loop of the `Both` branch for one output
pixel: the outer loop runs over `fP.y`, the inner over `fP.x`, sampling
`( iPI.x + fP.x, iPI.y + fP.y )` and skipping zero weights. -/
def accBoth (k : Kernel) (ratio offset : V2 ℚ) (s : ℤ → ℤ → ℚ) (ox oy : ℤ) : ℚ × ℚ :=
  (tapList (yRadius k ratio.y)).foldl
    (fun a fY =>
      (tapList (xRadius k ratio.x)).foldl
        (fun b fX =>
          if bothWeight k ratio offset ox oy fX fY = 0 then b
          else (b.1 + bothWeight k ratio offset ox oy fX fY *
                  s (posBase ratio.x offset.x ox + fX) (posBase ratio.y offset.y oy + fY),
                b.2 + bothWeight k ratio offset ox oy fX fY))
        a)
    (0, 0)

/-- The final per-pixel store: `if( totalW > 0.0f ) { *pIt = v / totalW; }`
with the buffer's zero default otherwise. -/
def pixelValue (vw : ℚ × ℚ) : ℚ := if 0 < vw.2 then vw.1 / vw.2 else 0

/-- The destination pixels of a tile in loop order: outer loop over
`oP.y`, inner loop over `oP.x` (row-major). -/
def rowMajor (S : ℕ) (t : V2 ℤ) : List (ℤ × ℤ) :=
  (List.range S).flatMap
    (fun (j : ℕ) => (List.range S).map (fun (i : ℕ) => (t.x + (i : ℤ), t.y + (j : ℤ))))

/-- One conditional write through the output iterator `pIt`. -/
def writePixel (buf : List ℚ) (idx : ℕ) (vw : ℚ × ℚ) : List ℚ :=
  if 0 < vw.2 then buf.set idx (vw.1 / vw.2) else buf

/-- One evaluation branch of `computeChannelData`: iterate the tile's
pixels in row-major order over the zero-initialised result buffer,
conditionally writing through the iterator and unconditionally
advancing it (`++pIt`). -/
def runPass (accF : ℤ → ℤ → ℚ × ℚ) (S : ℕ) (t : V2 ℤ) : List ℚ :=
  ((rowMajor S t).foldl
    (fun st p => (writePixel st.1 st.2 (accF p.1 p.2), st.2 + 1))
    (List.replicate (S * S) 0, 0)).1

/-- `Resample::computeChannelData`, with ratio/offset, kernel, pass set
and sampler already resolved: allocates a zero tile buffer of
`tileSize * tileSize` entries and dispatches on the pass set exactly as
the `if / else if / else if` chain does. -/
def computeChannelData (S : ℕ) (passes : ℕ) (k : Kernel) (ratio offset : V2 ℚ)
    (s : ℤ → ℤ → ℚ) (tileOrigin : V2 ℤ) : List ℚ :=
  if passes = Both then runPass (fun ox oy => accBoth k ratio offset s ox oy) S tileOrigin
  else if passes = Horizontal then runPass (fun ox oy => accH k ratio.x offset.x s ox oy) S tileOrigin
  else if passes = Vertical then runPass (fun ox oy => accV k ratio.y offset.y s ox oy) S tileOrigin
  else List.replicate (S * S) 0

/-!  Claim-level descriptions of the per-pixel sums: the taps with
non-zero weight, their weight sum and their weighted sample sum. -/

/-- The horizontal taps with non-zero weight at a destination column. -/
def xTapsNZ (k : Kernel) (rx offx : ℚ) (ox : ℤ) : List ℤ :=
  (tapList (xRadius k rx)).filter (fun fx => decide (xWeight k rx offx ox fx ≠ 0))

/-- Sum of the non-zero horizontal tap weights at a destination column. -/
def xDen (k : Kernel) (rx offx : ℚ) (ox : ℤ) : ℚ :=
  ((xTapsNZ k rx offx ox).map (xWeight k rx offx ox)).sum

/-- Sum of weight times sample over the non-zero horizontal taps. -/
def xNum (k : Kernel) (rx offx : ℚ) (s : ℤ → ℤ → ℚ) (ox oy : ℤ) : ℚ :=
  ((xTapsNZ k rx offx ox).map
    (fun fx => xWeight k rx offx ox fx * s (posBase rx offx ox + fx) oy)).sum

/-- The vertical taps with non-zero weight at a destination row. -/
def yTapsNZ (k : Kernel) (ry offy : ℚ) (oy : ℤ) : List ℤ :=
  (tapList (yRadius k ry)).filter (fun fy => decide (yWeight k ry offy oy fy ≠ 0))

/-- Sum of the non-zero vertical tap weights at a destination row. -/
def yDen (k : Kernel) (ry offy : ℚ) (oy : ℤ) : ℚ :=
  ((yTapsNZ k ry offy oy).map (yWeight k ry offy oy)).sum

/-- Sum of weight times sample over the non-zero vertical taps. -/
def yNum (k : Kernel) (ry offy : ℚ) (s : ℤ → ℤ → ℚ) (ox oy : ℤ) : ℚ :=
  ((yTapsNZ k ry offy oy).map
    (fun fy => yWeight k ry offy oy fy * s ox (posBase ry offy oy + fy))).sum

/-- The 2D tap grid of the combined pass, in loop order (outer `fy`,
inner `fx`), as `(fx, fy)` pairs. -/
def tapPairs (Rx Ry : ℤ) : List (ℤ × ℤ) :=
  (tapList Ry).flatMap (fun fy => (tapList Rx).map (fun fx => (fx, fy)))

/-- The combined-pass taps with non-zero weight at a destination pixel. -/
def bothTapsNZ (k : Kernel) (ratio offset : V2 ℚ) (ox oy : ℤ) : List (ℤ × ℤ) :=
  (tapPairs (xRadius k ratio.x) (yRadius k ratio.y)).filter
    (fun p => decide (bothWeight k ratio offset ox oy p.1 p.2 ≠ 0))

/-- Sum of the non-zero combined tap weights at a destination pixel. -/
def bothDen (k : Kernel) (ratio offset : V2 ℚ) (ox oy : ℤ) : ℚ :=
  ((bothTapsNZ k ratio offset ox oy).map
    (fun p => bothWeight k ratio offset ox oy p.1 p.2)).sum

/-- Sum of weight times sample over the non-zero combined taps. -/
def bothNum (k : Kernel) (ratio offset : V2 ℚ) (s : ℤ → ℤ → ℚ) (ox oy : ℤ) : ℚ :=
  ((bothTapsNZ k ratio offset ox oy).map
    (fun p => bothWeight k ratio offset ox oy p.1 p.2 *
      s (posBase ratio.x offset.x ox + p.1) (posBase ratio.y offset.y oy + p.2))).sum

/-!  The source coordinates each evaluation loop passes to
`sampler.sample` (taps with zero weight are skipped by `continue` and
never sampled). -/

/-- Coordinates sampled by the `Horizontal` branch over a whole tile. -/
def hSampleList (S : ℕ) (k : Kernel) (rx offx : ℚ) (t : V2 ℤ) : List (V2 ℤ) :=
  (rowMajor S t).flatMap
    (fun p => (xTapsNZ k rx offx p.1).map (fun fx => ⟨posBase rx offx p.1 + fx, p.2⟩))

/-- Coordinates sampled by the `Vertical` branch over a whole tile. -/
def vSampleList (S : ℕ) (k : Kernel) (ry offy : ℚ) (t : V2 ℤ) : List (V2 ℤ) :=
  (rowMajor S t).flatMap
    (fun p => (yTapsNZ k ry offy p.2).map (fun fy => ⟨p.1, posBase ry offy p.2 + fy⟩))

/-- Coordinates sampled by the `Both` branch over a whole tile. -/
def bothSampleList (S : ℕ) (k : Kernel) (ratio offset : V2 ℚ) (t : V2 ℤ) : List (V2 ℤ) :=
  (rowMajor S t).flatMap
    (fun p => (bothTapsNZ k ratio offset p.1 p.2).map
      (fun q => ⟨posBase ratio.x offset.x p.1 + q.1, posBase ratio.y offset.y p.2 + q.2⟩))

/-- Inclusive integer-box membership, the sense in which the sampler's
region must cover a sampled coordinate. -/
def Box2.containsI (b : Box2 ℤ) (p : V2 ℤ) : Prop :=
  b.min.x ≤ p.x ∧ p.x ≤ b.max.x ∧ b.min.y ≤ p.y ∧ p.y ≤ b.max.y

instance (b : Box2 ℤ) (p : V2 ℤ) : Decidable (b.containsI p) := by
  unfold Box2.containsI; infer_instance

/-!  The hash contract of `Resample::hashChannelData`, modelled as the
ordered trace of data appended to the `MurmurHash` accumulator. -/

/-- Which plug the sampler reads:
`passes == Vertical ? horizontalPassPlug() : inPlug()`. -/
inductive SamplerSrc
  | input
  | horizontalPass
deriving DecidableEq, Repr

/-- One item appended to the hash accumulator.  `base` stands for the
opaque base-class contribution `ImageProcessor::hashChannelData`;
`sampler` stands for `Sampler::hash`, which is determined by the plug
it reads, the channel, its sample region, and the bounding mode
(together with the upstream pixel content those identify). -/
inductive HashItem
  | base
  | str (s : String)
  | q (v : ℚ)
  | v2i (v : V2 ℤ)
  | sampler (src : SamplerSrc) (channel : String) (region : Box2 ℤ) (boundingMode : ℤ)
deriving DecidableEq, Repr

/-- The configuration surface read by `hashChannelData` /
`computeChannelData`: the node's plug values and the input's data
window. -/
structure Config where
  dstDataWindow : Box2 ℚ
  srcDataWindow : Box2 ℤ
  filterName : String
  filterWidth : V2 ℚ
  boundingMode : ℤ
  debug : DebugMode
deriving DecidableEq, Repr

/-- `Resample::hashChannelData` as the ordered list of appended hash
items: base identity, the filter's name, per-active-axis support size,
ratio and offset, the sampler hash over the computed input region, and
finally the tile origin.  An unknown filter name propagates
`createFilter`'s exception. -/
def hashChannelData (table : List FilterDesc) (S : ℕ) (cfg : Config)
    (parentIsMain : Bool) (channel : String) (tileOrigin : V2 ℤ) :
    Except String (List HashItem) :=
  let ro := ratioAndOffset cfg.dstDataWindow cfg.srcDataWindow
  match createFilter table cfg.filterName cfg.filterWidth ro.1 with
  | .error e => .error e
  | .ok filter =>
      let ratio := ro.1
      let offset := ro.2
      let passes := requiredPasses cfg.debug parentIsMain filter.separable
      .ok ([.base, .str filter.name]
        ++ (if passes &&& Horizontal ≠ 0 then
              [.q filter.width, .q ratio.x, .q offset.x] else [])
        ++ (if passes &&& Vertical ≠ 0 then
              [.q filter.height, .q ratio.y, .q offset.y] else [])
        ++ [.sampler (if passes = Vertical then .horizontalPass else .input) channel
              (inputRegion S tileOrigin passes ratio offset filter.width filter.height)
              cfg.boundingMode,
            .v2i tileOrigin])

/-- Decidable equality for `Except`, so that concrete hash traces can be
compared by evaluation. -/
instance {ε α : Type} [DecidableEq ε] [DecidableEq α] : DecidableEq (Except ε α) :=
  fun a b =>
    match a, b with
    | .ok x, .ok y =>
        if h : x = y then .isTrue (by rw [h]) else
          .isFalse (by intro hc; cases hc; exact h rfl)
    | .error e, .error f =>
        if h : e = f then .isTrue (by rw [h]) else
          .isFalse (by intro hc; cases hc; exact h rfl)
    | .ok _, .error _ => .isFalse (by intro hc; cases hc)
    | .error _, .ok _ => .isFalse (by intro hc; cases hc)

/-!  Concrete instances used to instantiate the theorems below. -/

/-- A separable box-like kernel of width/height 2 (the shape of the
registry's `"box"` kernel created at width 2): weight 1 inside the
support, 0 outside, with the 2D evaluation the product of the 1D
evaluations. -/
def boxKernel : Kernel :=
  ⟨2, 2,
    (fun x y => (if |x| ≤ 1 then 1 else 0) * (if |y| ≤ 1 then 1 else 0)),
    (fun x => if |x| ≤ 1 then 1 else 0),
    (fun y => if |y| ≤ 1 then 1 else 0)⟩

/-- A separable triangle kernel created at width/height 4 (the shape of
the registry's `"triangle"` kernel at an explicit width of 4):
`(2 - |x|) / 2` inside the support, 0 outside. -/
def tri4Kernel : Kernel :=
  ⟨4, 4,
    (fun x y => (if |x| < 2 then (2 - |x|) / 2 else 0) * (if |y| < 2 then (2 - |y|) / 2 else 0)),
    (fun x => if |x| < 2 then (2 - |x|) / 2 else 0),
    (fun y => if |y| < 2 then (2 - |y|) / 2 else 0)⟩

/-- A concrete source raster: a simple linear function of position. -/
def sampleLin : ℤ → ℤ → ℚ := fun x y => (x : ℚ) + 2 * (y : ℚ)

/-- The intermediate horizontal-pass raster over `sampleLin` for the
identity mapping with `boxKernel`, as read by the vertical pass. -/
def sampleLinH : ℤ → ℤ → ℚ := fun x y => pixelValue (accH boxKernel 1 0 sampleLin x y)

/-- Two configurations that differ only in the destination window's
vertical extent, with an explicit filter name and width, in
horizontal-debug mode: config A. -/
def c4CfgA : Config := ⟨⟨⟨0, 0⟩, ⟨9, 9⟩⟩, ⟨⟨0, 0⟩, ⟨9, 9⟩⟩, "lanczos3", ⟨6, 6⟩, 0, .horizontalPass⟩

/-- Companion of `c4CfgA` with destination `max.y = 19` instead of 9. -/
def c4CfgB : Config := ⟨⟨⟨0, 0⟩, ⟨9, 19⟩⟩, ⟨⟨0, 0⟩, ⟨9, 9⟩⟩, "lanczos3", ⟨6, 6⟩, 0, .horizontalPass⟩

/-- Two configurations with an empty filter name that differ only in the
destination window's vertical extent (vertical ratio 2 versus 1/2):
config A. -/
def c6CfgA : Config := ⟨⟨⟨0, 0⟩, ⟨4, 19⟩⟩, ⟨⟨0, 0⟩, ⟨9, 9⟩⟩, "", ⟨0, 0⟩, 0, .off⟩

/-- Companion of `c6CfgA` with destination `max.y = 4` instead of 19. -/
def c6CfgB : Config := ⟨⟨⟨0, 0⟩, ⟨4, 4⟩⟩, ⟨⟨0, 0⟩, ⟨9, 9⟩⟩, "", ⟨0, 0⟩, 0, .off⟩

/-- A separable kernel of width/height 2 whose tap weights sum to a
negative value at integer-centred phases (weight 1 at the centre, -1 on
the side lobes): its 2D evaluation is definitionally the product of its
1D evaluations, so it is separable, yet its one-axis weight sums are
negative. -/
def negKernel : Kernel :=
  ⟨2, 2,
    (fun x y => (if |x| ≤ 1 then (if x = 0 then 1 else -1) else 0) *
                (if |y| ≤ 1 then (if y = 0 then 1 else -1) else 0)),
    (fun x => if |x| ≤ 1 then (if x = 0 then 1 else -1) else 0),
    (fun y => if |y| ≤ 1 then (if y = 0 then 1 else -1) else 0)⟩

/-- A concrete source raster: the square of the x coordinate. -/
def sampleSq : ℤ → ℤ → ℚ := fun x _ => (x : ℚ) * (x : ℚ)

/-- The intermediate horizontal-pass raster over `sampleSq` for the
identity mapping with `negKernel`, as read by the vertical pass. -/
def sampleSqH : ℤ → ℤ → ℚ := fun x y => pixelValue (accH negKernel 1 0 sampleSq x y)

/-- Like `c6CfgA`/`c6CfgB` but with the filter name given explicitly, so
the filter identity cannot depend on the vertical ratio: config A. -/
def c6CfgA' : Config := ⟨⟨⟨0, 0⟩, ⟨4, 19⟩⟩, ⟨⟨0, 0⟩, ⟨9, 9⟩⟩, "lanczos3", ⟨0, 0⟩, 0, .off⟩

/-- Companion of `c6CfgA'` with destination `max.y = 4` instead of 19. -/
def c6CfgB' : Config := ⟨⟨⟨0, 0⟩, ⟨4, 4⟩⟩, ⟨⟨0, 0⟩, ⟨9, 9⟩⟩, "lanczos3", ⟨0, 0⟩, 0, .off⟩

/-!  Theorems. -/

/-- Claim C7: for every debug-mode value, output target and filter,
`requiredPasses` returns Horizontal when debug mode is HorizontalPass;
Both when debug mode is SinglePass; otherwise Vertical for the main
output raster with a separable filter, Both for the main output raster
with a non-separable filter, and Horizontal for the intermediate
horizontal-pass raster. -/
theorem c7_required_passes_cases : ∀ (p s : Bool),
    requiredPasses .horizontalPass p s = Horizontal ∧
    requiredPasses .singlePass p s = Both ∧
    requiredPasses .off true true = Vertical ∧
    requiredPasses .off true false = Both ∧
    requiredPasses .off false s = Horizontal := by with_unfolding_all decide

/-- Claim C5 (evaluation at the failing input): the ratio-and-offset
computation of `ratioAndOffset` performs no zero-size check — at a
source data window of size zero on the x axis the zero divisor is
reached and the function returns normally (in IEEE floats this division
produces ∞/NaN) instead of failing fast with a descriptive error. -/
theorem c5_ratio_unguarded_eval :
    (srcWindowSize ⟨⟨0, 0⟩, ⟨-1, 9⟩⟩).x = 0 ∧
    ratioAndOffset ⟨⟨0, 0⟩, ⟨9, 9⟩⟩ ⟨⟨0, 0⟩, ⟨-1, 9⟩⟩ = (⟨0, 1⟩, ⟨0, 0⟩) := by
  with_unfolding_all decide

/-- Claim C8: for a known, non-empty filter name, `createFilter` uses a
requested per-axis width unchanged whenever it is greater than 0, and
otherwise the filter's natural recommended width multiplied by
`max(1, ratio)` on that axis. -/
theorem c8_filter_width_selection :
    ∀ (table : List FilterDesc) (name : String) (fw ratio : V2 ℚ) (fd : FilterDesc),
      name ≠ "" →
      table.find? (fun d => d.name == name) = some fd →
      createFilter table name fw ratio =
        .ok ⟨name,
          (if 0 < fw.x then fw.x else fd.width * max 1 ratio.x),
          (if 0 < fw.y then fw.y else fd.width * max 1 ratio.y),
          fd.separable⟩ := by
  intro table name fw ratio fd hn hf
  have hres : resolvedFilterName name ratio = name := by
    unfold resolvedFilterName; rw [if_neg hn]
  unfold createFilter
  rw [hres, hf]

/-- Claim C8, witness: auto width (0) at ratio 3.0 yields the natural
width 6 of `"lanczos3"` times 3.0 on each axis. -/
theorem c8_filter_width_selection_witness :
    createFilter oiioFilters "lanczos3" ⟨0, 0⟩ ⟨3, 3⟩ = .ok ⟨"lanczos3", 18, 18, true⟩ := by
  have h := c8_filter_width_selection oiioFilters "lanczos3" ⟨0, 0⟩ ⟨3, 3⟩
    ⟨"lanczos3", 6, true⟩ (by with_unfolding_all decide) (by with_unfolding_all decide)
  rw [h]; with_unfolding_all decide

/-- Claim C9: with an empty filter name, `createFilter` selects the
upsizing default kernel `"blackman-harris"` when either axis ratio
exceeds 1, and the downsizing default kernel `"lanczos3"` otherwise. -/
theorem c9_default_filter_selection :
    ∀ (fw ratio : V2 ℚ) (F : Filter2D),
      (1 < ratio.x ∨ 1 < ratio.y →
        createFilter oiioFilters "" fw ratio = .ok F → F.name = "blackman-harris") ∧
      (¬(1 < ratio.x ∨ 1 < ratio.y) →
        createFilter oiioFilters "" fw ratio = .ok F → F.name = "lanczos3") := by
  intro fw ratio F
  constructor
  · intro h hok
    have hres : resolvedFilterName "" ratio = "blackman-harris" := by
      unfold resolvedFilterName; rw [if_pos rfl, if_pos h]
    unfold createFilter at hok
    rw [hres] at hok
    have hfind : oiioFilters.find? (fun fd => fd.name == "blackman-harris")
        = some ⟨"blackman-harris", 3, true⟩ := by with_unfolding_all decide
    rw [hfind] at hok
    cases hok
    rfl
  · intro h hok
    have hres : resolvedFilterName "" ratio = "lanczos3" := by
      unfold resolvedFilterName; rw [if_pos rfl, if_neg h]
    unfold createFilter at hok
    rw [hres] at hok
    have hfind : oiioFilters.find? (fun fd => fd.name == "lanczos3")
        = some ⟨"lanczos3", 6, true⟩ := by with_unfolding_all decide
    rw [hfind] at hok
    cases hok
    rfl

/-- Claim C9, witness: ratio.x = 2.0 selects the upsizing default and
ratio = (1/2, 1/2) selects the downsizing default. -/
theorem c9_default_filter_selection_witness :
    (Filter2D.name ⟨"blackman-harris", 6, 3, true⟩ = "blackman-harris") ∧
    (Filter2D.name ⟨"lanczos3", 6, 6, true⟩ = "lanczos3") := by
  constructor
  · exact (c9_default_filter_selection ⟨0, 0⟩ ⟨2, 1⟩ ⟨"blackman-harris", 6, 3, true⟩).1
      (Or.inl (by norm_num)) (by with_unfolding_all decide)
  · exact (c9_default_filter_selection ⟨0, 0⟩ ⟨1/2, 1/2⟩ ⟨"lanczos3", 6, 6, true⟩).2
      (by norm_num) (by with_unfolding_all decide)

/-- Claim C4, counterexample: two requests whose destination data
windows differ (only in the vertical extent), issued in
horizontal-debug mode with an explicit filter name and width, produce
identical hash traces — the destination data window is not itself
incorporated into the channel-data hash, so changing it need not change
the hash. -/
theorem c4_counterexample :
    hashChannelData oiioFilters 1 c4CfgA true "R" ⟨0, 0⟩
      = hashChannelData oiioFilters 1 c4CfgB true "R" ⟨0, 0⟩
    ∧ c4CfgA.dstDataWindow ≠ c4CfgB.dstDataWindow := by with_unfolding_all decide

/-- Claim C6, counterexample: two configurations that differ only in the
destination window's vertical extent (hence only in vertical ratio and
offset), with an empty filter name, give the intermediate
horizontal-pass raster different hashes: the default-kernel choice
reads the vertical ratio, so the horizontal pass is not independent of
vertical-only inputs. -/
theorem c6_counterexample :
    (c6CfgA.dstDataWindow.min = c6CfgB.dstDataWindow.min ∧
     c6CfgA.dstDataWindow.max.x = c6CfgB.dstDataWindow.max.x ∧
     c6CfgA.srcDataWindow = c6CfgB.srcDataWindow ∧
     c6CfgA.filterName = c6CfgB.filterName ∧
     c6CfgA.filterWidth = c6CfgB.filterWidth ∧
     c6CfgA.boundingMode = c6CfgB.boundingMode ∧
     c6CfgA.debug = c6CfgB.debug) ∧
    hashChannelData oiioFilters 1 c6CfgA false "R" ⟨0, 0⟩
      ≠ hashChannelData oiioFilters 1 c6CfgB false "R" ⟨0, 0⟩ := by with_unfolding_all decide

/-!  List lemmas relating the accumulator loops to sums. -/

/-- The zero-weight-skipping accumulator fold computes the pair of the
weighted sample sum and the weight sum over the non-zero-weight
elements. -/
theorem foldl_acc_eq {α : Type} (w sv : α → ℚ) (l : List α) :
    ∀ a : ℚ × ℚ,
      l.foldl (fun b i => if w i = 0 then b else (b.1 + w i * sv i, b.2 + w i)) a
        = (a.1 + ((l.filter (fun i => decide (w i ≠ 0))).map (fun i => w i * sv i)).sum,
           a.2 + ((l.filter (fun i => decide (w i ≠ 0))).map w).sum) := by
  induction l with
  | nil => intro a; simp
  | cons i l ih =>
      intro a
      by_cases h : w i = 0
      · simp only [List.foldl_cons, if_pos h, List.filter_cons, h]
        simp [ih a]
      · simp only [List.foldl_cons, if_neg h, List.filter_cons, h]
        simp only [ih]
        simp [h, add_assoc]

/-- A nested fold over an inner tap list equals a single fold over the
flattened pair list, pairs in loop order. -/
theorem foldl_foldl_flat {β γ δ : Type} (g : β → γ → δ → δ) (l1 : List β) :
    ∀ (l2 : List γ) (a : δ),
      l2.foldl (fun acc fy => l1.foldl (fun b fx => g fx fy b) acc) a
        = (l2.flatMap (fun fy => l1.map (fun fx => (fx, fy)))).foldl
            (fun acc p => g p.1 p.2 acc) a := by
  intro l2
  induction l2 with
  | nil => intro a; simp
  | cons fy l2 ih =>
      intro a
      simp only [List.foldl_cons, List.flatMap_cons, List.foldl_append, List.foldl_map]
      exact ih _

/-- The horizontal accumulator equals the pair of the claim-level sums. -/
theorem accH_eq (k : Kernel) (rx offx : ℚ) (s : ℤ → ℤ → ℚ) (ox oy : ℤ) :
    accH k rx offx s ox oy = (xNum k rx offx s ox oy, xDen k rx offx ox) := by
  unfold accH xNum xDen xTapsNZ
  rw [foldl_acc_eq (fun fX => xWeight k rx offx ox fX)
    (fun fX => s (posBase rx offx ox + fX) oy)]
  simp

/-- The vertical accumulator equals the pair of the claim-level sums. -/
theorem accV_eq (k : Kernel) (ry offy : ℚ) (s : ℤ → ℤ → ℚ) (ox oy : ℤ) :
    accV k ry offy s ox oy = (yNum k ry offy s ox oy, yDen k ry offy oy) := by
  unfold accV yNum yDen yTapsNZ
  rw [foldl_acc_eq (fun fY => yWeight k ry offy oy fY)
    (fun fY => s ox (posBase ry offy oy + fY))]
  simp

/-- The combined accumulator equals the pair of the claim-level sums. -/
theorem accBoth_eq (k : Kernel) (ratio offset : V2 ℚ) (s : ℤ → ℤ → ℚ) (ox oy : ℤ) :
    accBoth k ratio offset s ox oy
      = (bothNum k ratio offset s ox oy, bothDen k ratio offset ox oy) := by
  unfold accBoth bothNum bothDen bothTapsNZ tapPairs
  rw [foldl_foldl_flat
    (fun fX fY b =>
      if bothWeight k ratio offset ox oy fX fY = 0 then b
      else (b.1 + bothWeight k ratio offset ox oy fX fY *
              s (posBase ratio.x offset.x ox + fX) (posBase ratio.y offset.y oy + fY),
            b.2 + bothWeight k ratio offset ox oy fX fY))]
  have h2 := foldl_acc_eq (fun p : ℤ × ℤ => bothWeight k ratio offset ox oy p.1 p.2)
    (fun p : ℤ × ℤ => s (posBase ratio.x offset.x ox + p.1) (posBase ratio.y offset.y oy + p.2))
    ((tapList (yRadius k ratio.y)).flatMap
      (fun fy => List.map (fun fx => (fx, fy)) (tapList (xRadius k ratio.x))))
    (0, 0)
  simpa using h2

/-- Setting the element just past a list prefix. -/
theorem set_append_cons (pre : List ℚ) (x v : ℚ) (rest : List ℚ) :
    (pre ++ x :: rest).set pre.length v = pre ++ v :: rest := by
  induction pre with
  | nil => rfl
  | cons a pre ih => simp [List.set, ih]

/-- The iterator fold of an evaluation branch: starting just past an
already-written prefix with exactly enough zero slots, it writes one
pixel value per pixel, in order. -/
theorem runPass_fold (accF : ℤ → ℤ → ℚ × ℚ) :
    ∀ (l : List (ℤ × ℤ)) (pre : List ℚ),
      l.foldl (fun st p => (writePixel st.1 st.2 (accF p.1 p.2), st.2 + 1))
          (pre ++ List.replicate l.length 0, pre.length)
        = (pre ++ l.map (fun p => pixelValue (accF p.1 p.2)), pre.length + l.length) := by
  intro l
  induction l with
  | nil => intro pre; simp
  | cons p l ih =>
      intro pre
      simp only [List.length_cons, List.replicate_succ, List.foldl_cons]
      have hw : writePixel (pre ++ 0 :: List.replicate l.length 0) pre.length (accF p.1 p.2)
          = (pre ++ [pixelValue (accF p.1 p.2)]) ++ List.replicate l.length 0 := by
        unfold writePixel pixelValue
        by_cases h : 0 < (accF p.1 p.2).2
        · rw [if_pos h, if_pos h, set_append_cons]; simp
        · rw [if_neg h, if_neg h]; simp
      rw [hw]
      have hlen : pre.length + 1 = (pre ++ [pixelValue (accF p.1 p.2)]).length := by simp
      rw [hlen, ih (pre ++ [pixelValue (accF p.1 p.2)])]
      simp [List.map_cons]
      omega

/-- A tile holds `S * S` destination pixels. -/
theorem length_rowMajor (S : ℕ) (t : V2 ℤ) : (rowMajor S t).length = S * S := by
  simp [rowMajor, List.length_flatMap, Function.comp_def]

/-- Each evaluation branch produces exactly the row-major list of
per-pixel values. -/
theorem runPass_eq_map (accF : ℤ → ℤ → ℚ × ℚ) (S : ℕ) (t : V2 ℤ) :
    runPass accF S t = (rowMajor S t).map (fun p => pixelValue (accF p.1 p.2)) := by
  unfold runPass
  rw [show (S * S) = (rowMajor S t).length from (length_rowMajor S t).symm]
  have h := runPass_fold accF (rowMajor S t) []
  simpa using congrArg Prod.fst h

/-- Claim C1: for every destination pixel of every computed tile, in
each of the three evaluation strategies (combined, horizontal-only,
vertical-only), the output value equals the sum of weight times sample
over the non-zero-weight kernel taps divided by the sum of those
weights whenever that weight sum is strictly positive, and otherwise
keeps the buffer's default value zero. -/
theorem c1_output_normalized_weighted_average :
    ∀ (S : ℕ) (k : Kernel) (ratio offset : V2 ℚ) (s : ℤ → ℤ → ℚ) (t : V2 ℤ),
      computeChannelData S Both k ratio offset s t
        = (rowMajor S t).map (fun p =>
            if 0 < bothDen k ratio offset p.1 p.2 then
              bothNum k ratio offset s p.1 p.2 / bothDen k ratio offset p.1 p.2
            else 0)
      ∧ computeChannelData S Horizontal k ratio offset s t
        = (rowMajor S t).map (fun p =>
            if 0 < xDen k ratio.x offset.x p.1 then
              xNum k ratio.x offset.x s p.1 p.2 / xDen k ratio.x offset.x p.1
            else 0)
      ∧ computeChannelData S Vertical k ratio offset s t
        = (rowMajor S t).map (fun p =>
            if 0 < yDen k ratio.y offset.y p.2 then
              yNum k ratio.y offset.y s p.1 p.2 / yDen k ratio.y offset.y p.2
            else 0) := by
  intro S k ratio offset s t
  refine ⟨?_, ?_, ?_⟩
  · unfold computeChannelData
    rw [if_pos rfl, runPass_eq_map]
    simp only [accBoth_eq, pixelValue]
  · unfold computeChannelData
    rw [if_neg (by with_unfolding_all decide : ¬(Horizontal = Both)), if_pos rfl,
      runPass_eq_map]
    simp only [accH_eq, pixelValue]
  · unfold computeChannelData
    rw [if_neg (by with_unfolding_all decide : ¬(Vertical = Both)),
      if_neg (by with_unfolding_all decide : ¬(Vertical = Horizontal)), if_pos rfl,
      runPass_eq_map]
    simp only [accV_eq, pixelValue]

/-- Claim C10: the result buffer always holds exactly `tileSize *
tileSize` entries — one write position per destination pixel in
row-major order — and for any pass value other than Both, Horizontal or
Vertical it is returned as the all-zero buffer. -/
theorem c10_buffer_shape :
    ∀ (S passes : ℕ) (k : Kernel) (ratio offset : V2 ℚ) (s : ℤ → ℤ → ℚ) (t : V2 ℤ),
      (computeChannelData S passes k ratio offset s t).length = S * S
      ∧ (passes ≠ Both → passes ≠ Horizontal → passes ≠ Vertical →
          computeChannelData S passes k ratio offset s t = List.replicate (S * S) 0) := by
  intro S passes k ratio offset s t
  constructor
  · unfold computeChannelData
    split_ifs <;> simp [runPass_eq_map, length_rowMajor]
  · intro h1 h2 h3
    unfold computeChannelData
    rw [if_neg h1, if_neg h2, if_neg h3]

/-- Claim C10, witness: at tile size 2 and the invalid pass value 0 the
buffer is the all-zero buffer of length 4. -/
theorem c10_buffer_shape_witness :
    (computeChannelData 2 0 boxKernel ⟨1, 1⟩ ⟨0, 0⟩ sampleLin ⟨0, 0⟩).length = 2 * 2
    ∧ computeChannelData 2 0 boxKernel ⟨1, 1⟩ ⟨0, 0⟩ sampleLin ⟨0, 0⟩
        = List.replicate (2 * 2) 0 :=
  ⟨(c10_buffer_shape 2 0 boxKernel ⟨1, 1⟩ ⟨0, 0⟩ sampleLin ⟨0, 0⟩).1,
   (c10_buffer_shape 2 0 boxKernel ⟨1, 1⟩ ⟨0, 0⟩ sampleLin ⟨0, 0⟩).2
     (by with_unfolding_all decide) (by with_unfolding_all decide)
     (by with_unfolding_all decide)⟩

/-!  Sum algebra used for the separable / combined equivalence. -/

/-- Dropping the zero-weight elements from a weighted sum does not
change it when every dropped element contributes zero. -/
theorem sum_filter_ne_zero {α : Type} (w g : α → ℚ) (hg : ∀ i, w i = 0 → g i = 0)
    (l : List α) :
    ((l.filter (fun i => decide (w i ≠ 0))).map g).sum = (l.map g).sum := by
  induction l with
  | nil => rfl
  | cons i l ih =>
      by_cases h : w i = 0
      · have hd : (decide (w i ≠ 0)) = false := by simp [h]
        simp only [List.filter_cons, hd, Bool.false_eq_true, if_false, List.map_cons,
          List.sum_cons, ih, hg i h, zero_add]
      · have hd : (decide (w i ≠ 0)) = true := by simp [h]
        simp only [List.filter_cons, hd, if_true, List.map_cons, List.sum_cons, ih]

/-- Dividing each summand by a constant divides the sum. -/
theorem listSumDiv {α : Type} (l : List α) (f : α → ℚ) (c : ℚ) :
    (l.map (fun i => f i / c)).sum = (l.map f).sum / c := by
  induction l with
  | nil => simp
  | cons i l ih => simp [ih, add_div]

/-- Summing over the flattened pair grid equals the iterated sum. -/
theorem sum_map_flatMap_pairs {α β : Type} (l1 : List α) (l2 : List β) (G : α × β → ℚ) :
    ((l2.flatMap (fun fy => l1.map (fun fx => (fx, fy)))).map G).sum
      = (l2.map (fun fy => ((l1.map (fun fx => G (fx, fy))).sum))).sum := by
  induction l2 with
  | nil => rfl
  | cons fy l2 ih =>
      simp [List.flatMap_cons, List.map_append, List.sum_append, ih, List.map_map,
        Function.comp_def]

/-- The filtered horizontal weighted-sample sum equals the sum over the
full tap range. -/
theorem xNum_eq_full (k : Kernel) (rx offx : ℚ) (s : ℤ → ℤ → ℚ) (ox oy : ℤ) :
    xNum k rx offx s ox oy
      = ((tapList (xRadius k rx)).map
          (fun fx => xWeight k rx offx ox fx * s (posBase rx offx ox + fx) oy)).sum := by
  unfold xNum xTapsNZ
  exact sum_filter_ne_zero _ _ (fun fx h => by rw [h, zero_mul]) _

/-- The filtered horizontal weight sum equals the sum over the full tap
range. -/
theorem xDen_eq_full (k : Kernel) (rx offx : ℚ) (ox : ℤ) :
    xDen k rx offx ox = ((tapList (xRadius k rx)).map (xWeight k rx offx ox)).sum := by
  unfold xDen xTapsNZ
  exact sum_filter_ne_zero _ _ (fun fx h => h) _

/-- The filtered vertical weight sum equals the sum over the full tap
range. -/
theorem yDen_eq_full (k : Kernel) (ry offy : ℚ) (oy : ℤ) :
    yDen k ry offy oy = ((tapList (yRadius k ry)).map (yWeight k ry offy oy)).sum := by
  unfold yDen yTapsNZ
  exact sum_filter_ne_zero _ _ (fun fy h => h) _

/-- With a separable kernel, the combined weighted-sample sum factors
through the horizontal sums, row by row. -/
theorem bothNum_factor (k : Kernel) (ratio offset : V2 ℚ) (s : ℤ → ℤ → ℚ) (ox oy : ℤ)
    (hsep : ∀ x y, k.eval2 x y = k.xfilt x * k.yfilt y) :
    bothNum k ratio offset s ox oy
      = ((tapList (yRadius k ratio.y)).map
          (fun fy => yWeight k ratio.y offset.y oy fy *
            xNum k ratio.x offset.x s ox (posBase ratio.y offset.y oy + fy))).sum := by
  unfold bothNum bothTapsNZ tapPairs
  rw [sum_filter_ne_zero _ _ (fun p h => by rw [h, zero_mul])]
  rw [sum_map_flatMap_pairs]
  refine congrArg List.sum (List.map_congr_left ?_)
  intro fy _
  rw [xNum_eq_full, ← List.sum_map_mul_left]
  refine congrArg List.sum (List.map_congr_left ?_)
  intro fx _
  unfold bothWeight xWeight yWeight
  rw [hsep]
  ring

/-- With a separable kernel, the combined weight sum is the product of
the vertical and horizontal weight sums. -/
theorem bothDen_factor (k : Kernel) (ratio offset : V2 ℚ) (ox oy : ℤ)
    (hsep : ∀ x y, k.eval2 x y = k.xfilt x * k.yfilt y) :
    bothDen k ratio offset ox oy
      = yDen k ratio.y offset.y oy * xDen k ratio.x offset.x ox := by
  unfold bothDen bothTapsNZ tapPairs
  rw [sum_filter_ne_zero _ _ (fun p h => h)]
  rw [sum_map_flatMap_pairs]
  have hrow : ∀ fy : ℤ,
      ((tapList (xRadius k ratio.x)).map
        (fun fx => bothWeight k ratio offset ox oy fx fy)).sum
        = yWeight k ratio.y offset.y oy fy * xDen k ratio.x offset.x ox := by
    intro fy
    rw [xDen_eq_full, ← List.sum_map_mul_left]
    refine congrArg List.sum (List.map_congr_left ?_)
    intro fx _
    unfold bothWeight xWeight yWeight
    rw [hsep]
    ring
  calc ((tapList (yRadius k ratio.y)).map
        (fun fy => ((tapList (xRadius k ratio.x)).map
          (fun fx => bothWeight k ratio offset ox oy fx fy)).sum)).sum
      = ((tapList (yRadius k ratio.y)).map
          (fun fy => yWeight k ratio.y offset.y oy fy * xDen k ratio.x offset.x ox)).sum := by
        exact congrArg List.sum (List.map_congr_left (fun fy _ => hrow fy))
    _ = ((tapList (yRadius k ratio.y)).map (yWeight k ratio.y offset.y oy)).sum
          * xDen k ratio.x offset.x ox := by
        rw [← List.sum_map_mul_right]
    _ = yDen k ratio.y offset.y oy * xDen k ratio.x offset.x ox := by
        rw [yDen_eq_full]

/-- Per-pixel equivalence of the vertical pass over the horizontal-pass
intermediate with the combined pass, for a separable kernel whose
horizontal weight sum at the pixel's column is positive. -/
theorem vertical_pixel_eq_both (k : Kernel) (ratio offset : V2 ℚ) (s : ℤ → ℤ → ℚ)
    (ox oy : ℤ)
    (hsep : ∀ x y, k.eval2 x y = k.xfilt x * k.yfilt y)
    (hA : 0 < xDen k ratio.x offset.x ox) :
    pixelValue (accV k ratio.y offset.y
        (fun x y => pixelValue (accH k ratio.x offset.x s x y)) ox oy)
      = pixelValue (accBoth k ratio offset s ox oy) := by
  rw [accV_eq, accBoth_eq]
  have hnum : yNum k ratio.y offset.y
      (fun x y => pixelValue (accH k ratio.x offset.x s x y)) ox oy
      = ((tapList (yRadius k ratio.y)).map
          (fun fy => yWeight k ratio.y offset.y oy fy *
            xNum k ratio.x offset.x s ox (posBase ratio.y offset.y oy + fy))).sum
        / xDen k ratio.x offset.x ox := by
    unfold yNum
    have hstep : ∀ fy : ℤ,
        yWeight k ratio.y offset.y oy fy *
          pixelValue (accH k ratio.x offset.x s ox (posBase ratio.y offset.y oy + fy))
          = (yWeight k ratio.y offset.y oy fy *
              xNum k ratio.x offset.x s ox (posBase ratio.y offset.y oy + fy))
            / xDen k ratio.x offset.x ox := by
      intro fy
      rw [accH_eq]
      unfold pixelValue
      rw [if_pos hA, mul_div_assoc]
    calc ((yTapsNZ k ratio.y offset.y oy).map
          (fun fy => yWeight k ratio.y offset.y oy fy *
            pixelValue (accH k ratio.x offset.x s ox (posBase ratio.y offset.y oy + fy)))).sum
        = ((yTapsNZ k ratio.y offset.y oy).map
            (fun fy => (yWeight k ratio.y offset.y oy fy *
              xNum k ratio.x offset.x s ox (posBase ratio.y offset.y oy + fy))
              / xDen k ratio.x offset.x ox)).sum := by
          exact congrArg List.sum (List.map_congr_left (fun fy _ => hstep fy))
      _ = ((yTapsNZ k ratio.y offset.y oy).map
            (fun fy => yWeight k ratio.y offset.y oy fy *
              xNum k ratio.x offset.x s ox (posBase ratio.y offset.y oy + fy))).sum
            / xDen k ratio.x offset.x ox := by
          rw [listSumDiv]
      _ = ((tapList (yRadius k ratio.y)).map
            (fun fy => yWeight k ratio.y offset.y oy fy *
              xNum k ratio.x offset.x s ox (posBase ratio.y offset.y oy + fy))).sum
            / xDen k ratio.x offset.x ox := by
          unfold yTapsNZ
          rw [sum_filter_ne_zero _ _ (fun fy h => by rw [h, zero_mul])]
  rw [hnum, bothNum_factor k ratio offset s ox oy hsep, bothDen_factor k ratio offset ox oy hsep]
  unfold pixelValue
  by_cases hy : 0 < yDen k ratio.y offset.y oy
  · rw [if_pos hy, if_pos (mul_pos hy hA)]
    rw [div_div, mul_comm]
  · rw [if_neg hy, if_neg (by nlinarith : ¬ 0 < yDen k ratio.y offset.y oy * xDen k ratio.x offset.x ox)]

/-- Claim C2, counterexample: for the separable kernel `negKernel`
(whose 2D evaluation is definitionally the product of its 1D
evaluations) at unit ratio and zero offset over the source `sampleSq`,
the vertical pass reading exactly the horizontal-pass intermediate
raster produces the pixel 0 while the ForceSinglePass combined path
produces 2 — a deviation of 2, far beyond any 1e-5 tolerance.  The
horizontal weight sum is -1, so the intermediate pixel is left at the
zero default, while the combined weight sum (-1)·(-1) = 1 is positive
and normalizes a non-zero numerator. -/
theorem c2_counterexample :
    computeChannelData 1 Vertical negKernel ⟨1, 1⟩ ⟨0, 0⟩ sampleSqH ⟨0, 0⟩ = [0]
    ∧ computeChannelData 1 Both negKernel ⟨1, 1⟩ ⟨0, 0⟩ sampleSq ⟨0, 0⟩ = [2]
    ∧ xDen negKernel 1 0 0 = -1 := by
  with_unfolding_all decide

/-- Claim C2 as amended: for every separable kernel, tile, ratio, offset
and source sampler, the pixel buffer produced by the vertical pass
reading the horizontal-pass intermediate raster equals, pixel for
pixel, the buffer produced by the combined-kernel (ForceSinglePass)
path on the same inputs — exactly, in exact arithmetic — provided the
horizontal weight sum at each destination column is strictly positive
(as it is for the registry's separable kernels); when a column's
horizontal weight sum is not positive the intermediate pixel defaults
to zero and the two results can differ. -/
theorem c2_separable_two_pass_matches_single_pass :
    ∀ (S : ℕ) (k : Kernel) (ratio offset : V2 ℚ) (s sV : ℤ → ℤ → ℚ) (t : V2 ℤ),
      (∀ x y, k.eval2 x y = k.xfilt x * k.yfilt y) →
      (∀ ox, 0 < xDen k ratio.x offset.x ox) →
      (∀ x y, sV x y = pixelValue (accH k ratio.x offset.x s x y)) →
      computeChannelData S Vertical k ratio offset sV t
        = computeChannelData S Both k ratio offset s t := by
  intro S k ratio offset s sV t hsep hA hsV
  have hsV' : sV = fun x y => pixelValue (accH k ratio.x offset.x s x y) :=
    funext (fun x => funext (fun y => hsV x y))
  subst hsV'
  unfold computeChannelData
  rw [if_neg (by with_unfolding_all decide : ¬(Vertical = Both)),
    if_neg (by with_unfolding_all decide : ¬(Vertical = Horizontal)), if_pos rfl,
    if_pos rfl]
  rw [runPass_eq_map, runPass_eq_map]
  refine List.map_congr_left ?_
  intro p _
  exact vertical_pixel_eq_both k ratio offset s p.1 p.2 hsep (hA p.1)

/-- Claim C2, witness: with the box kernel at unit ratio over a concrete
source raster, the two-pass and single-pass buffers of a 2×2 tile
coincide. -/
theorem c2_separable_two_pass_matches_single_pass_witness :
    computeChannelData 2 Vertical boxKernel ⟨1, 1⟩ ⟨0, 0⟩ sampleLinH ⟨0, 0⟩
      = computeChannelData 2 Both boxKernel ⟨1, 1⟩ ⟨0, 0⟩ sampleLin ⟨0, 0⟩ := by
  refine c2_separable_two_pass_matches_single_pass 2 boxKernel ⟨1, 1⟩ ⟨0, 0⟩
    sampleLin sampleLinH ⟨0, 0⟩ (fun x y => rfl) ?_ (fun x y => rfl)
  intro ox
  have hfr : Int.fract (srcPos 1 0 ox) = 1/2 := by
    have h1 : srcPos 1 0 ox = (ox : ℚ) + 1/2 := by unfold srcPos; norm_num
    rw [h1, Int.fract_int_add]
    exact Int.fract_eq_self.mpr (by norm_num)
  have hxr : xRadius boxKernel 1 = 1 := by with_unfolding_all decide
  have ht : tapList 1 = [-1, 0, 1] := by with_unfolding_all decide
  unfold xDen xTapsNZ
  rw [hxr, ht]
  simp [xWeight, filterArg, hfr, boxKernel]
  norm_num

/-!  Input-region geometry. -/

/-- `inputRegion` for a horizontal-only pass: the x axis is mapped into
source space and expanded by half the kernel width; the y axis is left
as the tile's own rows. -/
theorem inputRegion_horizontal (S : ℕ) (t : V2 ℤ) (ratio offset : V2 ℚ) (fw fh : ℚ) :
    inputRegion S t Horizontal ratio offset fw fh
      = ⟨⟨⌊(t.x : ℚ) / ratio.x + offset.x - fw / 2⌋, t.y⟩,
         ⟨⌈((t.x : ℚ) + (S : ℚ)) / ratio.x + offset.x + fw / 2⌉, t.y + (S : ℤ)⟩⟩ := by
  have h1 : (Horizontal &&& Horizontal ≠ 0) := by decide
  have h2 : ¬(Horizontal &&& Vertical ≠ 0) := by decide
  simp only [inputRegion, box2fToBox2i, if_pos h1, if_neg h2]
  refine congrArg₂ Box2.mk ?_ ?_
  · refine congrArg₂ V2.mk rfl ?_
    exact Int.floor_intCast t.y
  · refine congrArg₂ V2.mk rfl ?_
    rw [show (t.y : ℚ) + (S : ℚ) = ((t.y + (S : ℤ) : ℤ) : ℚ) by push_cast; ring]
    exact Int.ceil_intCast _

/-- `inputRegion` for a vertical-only pass: the y axis is mapped into
source space and expanded by half the kernel height; the x axis is left
as the tile's own columns. -/
theorem inputRegion_vertical (S : ℕ) (t : V2 ℤ) (ratio offset : V2 ℚ) (fw fh : ℚ) :
    inputRegion S t Vertical ratio offset fw fh
      = ⟨⟨t.x, ⌊(t.y : ℚ) / ratio.y + offset.y - fh / 2⌋⟩,
         ⟨t.x + (S : ℤ), ⌈((t.y : ℚ) + (S : ℚ)) / ratio.y + offset.y + fh / 2⌉⟩⟩ := by
  have h1 : ¬(Vertical &&& Horizontal ≠ 0) := by decide
  have h2 : (Vertical &&& Vertical ≠ 0) := by decide
  simp only [inputRegion, box2fToBox2i, if_neg h1, if_pos h2]
  refine congrArg₂ Box2.mk ?_ ?_
  · refine congrArg₂ V2.mk ?_ rfl
    exact Int.floor_intCast t.x
  · refine congrArg₂ V2.mk ?_ rfl
    rw [show (t.x : ℚ) + (S : ℚ) = ((t.x + (S : ℤ) : ℤ) : ℚ) by push_cast; ring]
    exact Int.ceil_intCast _

/-- `inputRegion` for the combined pass: both axes are mapped into
source space and expanded by the half support. -/
theorem inputRegion_both (S : ℕ) (t : V2 ℤ) (ratio offset : V2 ℚ) (fw fh : ℚ) :
    inputRegion S t Both ratio offset fw fh
      = ⟨⟨⌊(t.x : ℚ) / ratio.x + offset.x - fw / 2⌋,
          ⌊(t.y : ℚ) / ratio.y + offset.y - fh / 2⌋⟩,
         ⟨⌈((t.x : ℚ) + (S : ℚ)) / ratio.x + offset.x + fw / 2⌉,
          ⌈((t.y : ℚ) + (S : ℚ)) / ratio.y + offset.y + fh / 2⌉⟩⟩ := by
  have h1 : (Both &&& Horizontal ≠ 0) := by decide
  have h2 : (Both &&& Vertical ≠ 0) := by decide
  simp only [inputRegion, box2fToBox2i, if_pos h1, if_pos h2]

/-- Every pixel of the row-major tile listing lies in the tile bounds. -/
theorem mem_rowMajor {S : ℕ} {t : V2 ℤ} {p : ℤ × ℤ} (hp : p ∈ rowMajor S t) :
    t.x ≤ p.1 ∧ p.1 < t.x + (S : ℤ) ∧ t.y ≤ p.2 ∧ p.2 < t.y + (S : ℤ) := by
  unfold rowMajor at hp
  rw [List.mem_flatMap] at hp
  obtain ⟨j, hj, hp⟩ := hp
  rw [List.mem_map] at hp
  obtain ⟨i, hi, rfl⟩ := hp
  rw [List.mem_range] at hj
  rw [List.mem_range] at hi
  refine ⟨?_, ?_, ?_, ?_⟩
  · show t.x ≤ t.x + (i : ℤ)
    omega
  · show t.x + (i : ℤ) < t.x + (S : ℤ)
    omega
  · show t.y ≤ t.y + (j : ℤ)
    omega
  · show t.y + (j : ℤ) < t.y + (S : ℤ)
    omega

/-- One axis of the conservativeness bound: for a non-shrinking ratio
(`1 ≤ r`), every tap whose filter argument lies within the kernel's
support samples inside the outward-rounded mapped-and-expanded axis
range.  No lower bound on the support size is needed: the real deficit
between the loop's support radius and the region's expansion is less
than one pixel there, so the outward integer rounding absorbs it. -/
theorem axis_bounds (r off w : ℚ) (hr : 1 ≤ r) (t : ℤ) (S : ℕ) (o fx : ℤ)
    (ho1 : t ≤ o) (ho2 : o < t + (S : ℤ))
    (harg : |filterArg r off o fx| ≤ w / 2) :
    ⌊(t : ℚ) / r + off - w / 2⌋ ≤ posBase r off o + fx
    ∧ posBase r off o + fx ≤ ⌈((t : ℚ) + (S : ℚ)) / r + off + w / 2⌉ := by
  have hr0 : (0 : ℚ) < r := lt_of_lt_of_le one_pos hr
  have hrne : r ≠ 0 := ne_of_gt hr0
  have hw0 : (0 : ℚ) ≤ w := by
    have h := abs_nonneg (filterArg r off o fx)
    linarith
  unfold filterArg at harg
  obtain ⟨hlo, hhi⟩ := abs_le.mp harg
  have hbase : ((posBase r off o : ℤ) : ℚ) = srcPos r off o - Int.fract (srcPos r off o) := by
    unfold posBase
    have h := Int.floor_add_fract (srcPos r off o)
    linarith
  have hPr : srcPos r off o * r = (o : ℚ) + 1/2 + off * r := by
    unfold srcPos
    field_simp
    ring
  have hcast1 : ((t : ℤ) : ℚ) ≤ (o : ℚ) := by exact_mod_cast ho1
  have hcast2 : (o : ℚ) < (t : ℚ) + (S : ℚ) := by exact_mod_cast ho2
  constructor
  · have hq : (t : ℚ) / r + off - w / 2 - 1 < ((posBase r off o + fx : ℤ) : ℚ) := by
      push_cast
      rw [hbase]
      have h2 : (t : ℚ) <
          (srcPos r off o - Int.fract (srcPos r off o) + fx - off + w / 2 + 1) * r := by
        nlinarith [hPr, hlo, mul_nonneg hw0 (sub_nonneg.mpr hr), hcast1, hr]
      have h3 : (t : ℚ) / r <
          srcPos r off o - Int.fract (srcPos r off o) + fx - off + w / 2 + 1 := by
        rw [div_lt_iff₀ hr0]
        exact h2
      linarith
    have hfl : (⌊(t : ℚ) / r + off - w / 2⌋ : ℚ) ≤ (t : ℚ) / r + off - w / 2 :=
      Int.floor_le _
    have hcmp : (⌊(t : ℚ) / r + off - w / 2⌋ : ℚ) < ((posBase r off o + fx : ℤ) : ℚ) + 1 := by
      linarith
    have hlt : ⌊(t : ℚ) / r + off - w / 2⌋ < posBase r off o + fx + 1 := by
      exact_mod_cast hcmp
    omega
  · have hq : ((posBase r off o + fx : ℤ) : ℚ) < ((t : ℚ) + (S : ℚ)) / r + off + w / 2 + 1 := by
      push_cast
      rw [hbase]
      have h2 : (srcPos r off o - Int.fract (srcPos r off o) + fx - off - w / 2 - 1) * r
          < (t : ℚ) + (S : ℚ) := by
        nlinarith [hPr, hhi, mul_nonneg hw0 (sub_nonneg.mpr hr), hcast2, hr]
      have h3 : srcPos r off o - Int.fract (srcPos r off o) + fx - off - w / 2 - 1
          < ((t : ℚ) + (S : ℚ)) / r := by
        rw [lt_div_iff₀ hr0]
        exact h2
      linarith
    have hce : ((t : ℚ) + (S : ℚ)) / r + off + w / 2
        ≤ (⌈((t : ℚ) + (S : ℚ)) / r + off + w / 2⌉ : ℚ) := Int.le_ceil _
    have hcmp : ((posBase r off o + fx : ℤ) : ℚ)
        < (⌈((t : ℚ) + (S : ℚ)) / r + off + w / 2⌉ : ℚ) + 1 := by
      linarith
    have hlt : posBase r off o + fx < ⌈((t : ℚ) + (S : ℚ)) / r + off + w / 2⌉ + 1 := by
      exact_mod_cast hcmp
    omega

/-- Claim C3, counterexample: at ratio.x = 1/3 (a shrinking resample)
with a width-4 triangle kernel, the horizontal evaluation loop passes
the source coordinate (-4, 0) to the sampler with a strictly non-zero
weight, yet the integer input region returned by `inputRegion` starts
at x = -2: the region does not contain every sampled coordinate and is
smaller than the kernel's true support. -/
theorem c3_counterexample :
    (⟨-4, 0⟩ : V2 ℤ) ∈ hSampleList 1 tri4Kernel (1/3) 0 ⟨0, 0⟩
    ∧ ¬ (inputRegion 1 ⟨0, 0⟩ Horizontal ⟨1/3, 1⟩ ⟨0, 0⟩ tri4Kernel.width
          tri4Kernel.height).containsI ⟨-4, 0⟩ := by
  with_unfolding_all decide

/-- Claim C3 as amended: when the ratio on each axis is at least 1 (a
non-shrinking resample), the input region — tile bounds divided by
ratio, plus offset, expanded by width/2 and height/2 on the axes of the
active passes, rounded outward — contains every source coordinate that
the corresponding evaluation loop passes to the sampler, for all three
pass sets; for ratios below 1 it can be smaller than the true
support. -/
theorem c3_input_region_conservative_non_shrinking :
    ∀ (S : ℕ) (k : Kernel) (ratio offset : V2 ℚ) (t : V2 ℤ),
      1 ≤ ratio.x → 1 ≤ ratio.y →
      (∀ x, k.width / 2 < |x| → k.xfilt x = 0) →
      (∀ y, k.height / 2 < |y| → k.yfilt y = 0) →
      (∀ x y, k.width / 2 < |x| ∨ k.height / 2 < |y| → k.eval2 x y = 0) →
      (∀ c ∈ hSampleList S k ratio.x offset.x t,
        (inputRegion S t Horizontal ratio offset k.width k.height).containsI c)
      ∧ (∀ c ∈ vSampleList S k ratio.y offset.y t,
        (inputRegion S t Vertical ratio offset k.width k.height).containsI c)
      ∧ (∀ c ∈ bothSampleList S k ratio offset t,
        (inputRegion S t Both ratio offset k.width k.height).containsI c) := by
  intro S k ratio offset t hrx hry hsx hsy hs2
  refine ⟨?_, ?_, ?_⟩
  · intro c hc
    unfold hSampleList at hc
    rw [List.mem_flatMap] at hc
    obtain ⟨p, hp, hc⟩ := hc
    rw [List.mem_map] at hc
    obtain ⟨fx, hfx, rfl⟩ := hc
    obtain ⟨hox1, hox2, hoy1, hoy2⟩ := mem_rowMajor hp
    unfold xTapsNZ at hfx
    rw [List.mem_filter] at hfx
    obtain ⟨-, hfx⟩ := hfx
    rw [decide_eq_true_iff] at hfx
    have harg : |filterArg ratio.x offset.x p.1 fx| ≤ k.width / 2 := by
      by_contra hcon
      push_neg at hcon
      exact hfx (hsx _ hcon)
    have hb := axis_bounds ratio.x offset.x k.width hrx t.x S p.1 fx hox1 hox2 harg
    rw [inputRegion_horizontal]
    exact ⟨hb.1, hb.2, hoy1, le_of_lt hoy2⟩
  · intro c hc
    unfold vSampleList at hc
    rw [List.mem_flatMap] at hc
    obtain ⟨p, hp, hc⟩ := hc
    rw [List.mem_map] at hc
    obtain ⟨fy, hfy, rfl⟩ := hc
    obtain ⟨hox1, hox2, hoy1, hoy2⟩ := mem_rowMajor hp
    unfold yTapsNZ at hfy
    rw [List.mem_filter] at hfy
    obtain ⟨-, hfy⟩ := hfy
    rw [decide_eq_true_iff] at hfy
    have harg : |filterArg ratio.y offset.y p.2 fy| ≤ k.height / 2 := by
      by_contra hcon
      push_neg at hcon
      exact hfy (hsy _ hcon)
    have hb := axis_bounds ratio.y offset.y k.height hry t.y S p.2 fy hoy1 hoy2 harg
    rw [inputRegion_vertical]
    exact ⟨hox1, le_of_lt hox2, hb.1, hb.2⟩
  · intro c hc
    unfold bothSampleList at hc
    rw [List.mem_flatMap] at hc
    obtain ⟨p, hp, hc⟩ := hc
    rw [List.mem_map] at hc
    obtain ⟨q, hq, rfl⟩ := hc
    obtain ⟨hox1, hox2, hoy1, hoy2⟩ := mem_rowMajor hp
    unfold bothTapsNZ at hq
    rw [List.mem_filter] at hq
    obtain ⟨-, hq⟩ := hq
    rw [decide_eq_true_iff] at hq
    have hargx : |filterArg ratio.x offset.x p.1 q.1| ≤ k.width / 2 := by
      by_contra hcon
      push_neg at hcon
      exact hq (hs2 _ _ (Or.inl hcon))
    have hargy : |filterArg ratio.y offset.y p.2 q.2| ≤ k.height / 2 := by
      by_contra hcon
      push_neg at hcon
      exact hq (hs2 _ _ (Or.inr hcon))
    have hbx := axis_bounds ratio.x offset.x k.width hrx t.x S p.1 q.1 hox1 hox2 hargx
    have hby := axis_bounds ratio.y offset.y k.height hry t.y S p.2 q.2 hoy1 hoy2 hargy
    rw [inputRegion_both]
    exact ⟨hbx.1, hbx.2, hby.1, hby.2⟩

/-- Claim C3, witness: at unit ratio with the box kernel the containment
holds at a concretely sampled coordinate. -/
theorem c3_input_region_conservative_witness :
    (inputRegion 1 ⟨0, 0⟩ Horizontal ⟨1, 1⟩ ⟨0, 0⟩ boxKernel.width
      boxKernel.height).containsI ⟨0, 0⟩ := by
  refine (c3_input_region_conservative_non_shrinking 1 boxKernel ⟨1, 1⟩ ⟨0, 0⟩ ⟨0, 0⟩
    (by norm_num) (by norm_num)
    ?_ ?_ ?_).1 ⟨0, 0⟩ (by with_unfolding_all decide)
  · intro x hx
    have h1 : ¬(|x| ≤ 1) := by
      simp only [boxKernel] at hx
      norm_num at hx
      intro hle
      linarith
    simp [boxKernel, h1]
  · intro y hy
    have h1 : ¬(|y| ≤ 1) := by
      simp only [boxKernel] at hy
      norm_num at hy
      intro hle
      linarith
    simp [boxKernel, h1]
  · intro x y hxy
    rcases hxy with hx | hy
    · have h1 : ¬(|x| ≤ 1) := by
        simp only [boxKernel] at hx
        norm_num at hx
        intro hle
        linarith
      simp [boxKernel, h1]
    · have h1 : ¬(|y| ≤ 1) := by
        simp only [boxKernel] at hy
        norm_num at hy
        intro hle
        linarith
      simp [boxKernel, h1]

/-!  The shape of a successful channel-data hash. -/

/-- A successful `hashChannelData` produces exactly the ordered trace:
base identity, filter name, per-active-axis support/ratio/offset,
sampler hash over the input region, tile origin. -/
theorem hashChannelData_ok_eq (table : List FilterDesc) (S : ℕ) (cfg : Config)
    (pm : Bool) (ch : String) (t : V2 ℤ) (F : Filter2D)
    (hF : createFilter table cfg.filterName cfg.filterWidth
        (ratioAndOffset cfg.dstDataWindow cfg.srcDataWindow).1 = .ok F) :
    hashChannelData table S cfg pm ch t
      = .ok ([HashItem.base, .str F.name]
          ++ (if requiredPasses cfg.debug pm F.separable &&& Horizontal ≠ 0 then
                [.q F.width,
                 .q (ratioAndOffset cfg.dstDataWindow cfg.srcDataWindow).1.x,
                 .q (ratioAndOffset cfg.dstDataWindow cfg.srcDataWindow).2.x]
              else [])
          ++ (if requiredPasses cfg.debug pm F.separable &&& Vertical ≠ 0 then
                [.q F.height,
                 .q (ratioAndOffset cfg.dstDataWindow cfg.srcDataWindow).1.y,
                 .q (ratioAndOffset cfg.dstDataWindow cfg.srcDataWindow).2.y]
              else [])
          ++ [.sampler
                (if requiredPasses cfg.debug pm F.separable = Vertical then .horizontalPass
                 else .input) ch
                (inputRegion S t (requiredPasses cfg.debug pm F.separable)
                  (ratioAndOffset cfg.dstDataWindow cfg.srcDataWindow).1
                  (ratioAndOffset cfg.dstDataWindow cfg.srcDataWindow).2 F.width F.height)
                cfg.boundingMode,
              .v2i t]) := by
  simp only [hashChannelData]
  rw [hF]

/-- A successful hash implies the filter was created successfully. -/
theorem hashChannelData_ok_filter (table : List FilterDesc) (S : ℕ) (cfg : Config)
    (pm : Bool) (ch : String) (t : V2 ℤ) (tr : List HashItem)
    (h : hashChannelData table S cfg pm ch t = .ok tr) :
    ∃ F, createFilter table cfg.filterName cfg.filterWidth
        (ratioAndOffset cfg.dstDataWindow cfg.srcDataWindow).1 = .ok F := by
  cases hcf : createFilter table cfg.filterName cfg.filterWidth
      (ratioAndOffset cfg.dstDataWindow cfg.srcDataWindow).1 with
  | error e =>
      simp only [hashChannelData, hcf] at h
      exact Except.noConfusion h
  | ok F => exact ⟨F, rfl⟩

/-- Claim C4 as amended: the channel-data hash incorporates, in this
order, the base identity of the operation, the filter's name, then —
only for each axis whose pass is active — the kernel's support size,
the ratio and the offset on that axis, then the sampler's content hash
over the computed input region, then the tile origin.  The destination
data window itself is not appended; it influences the hash only through
the derived ratio, offset, filter and sampler region.  Identical
requests hash identically, and changing the tile origin or the filter
name changes the trace. -/
theorem c4_hash_contents_order :
    (∀ (table : List FilterDesc) (S : ℕ) (cfg : Config) (pm : Bool) (ch : String)
        (t : V2 ℤ) (F : Filter2D),
      createFilter table cfg.filterName cfg.filterWidth
          (ratioAndOffset cfg.dstDataWindow cfg.srcDataWindow).1 = .ok F →
      hashChannelData table S cfg pm ch t
        = .ok ([HashItem.base, .str F.name]
            ++ (if requiredPasses cfg.debug pm F.separable &&& Horizontal ≠ 0 then
                  [.q F.width,
                   .q (ratioAndOffset cfg.dstDataWindow cfg.srcDataWindow).1.x,
                   .q (ratioAndOffset cfg.dstDataWindow cfg.srcDataWindow).2.x]
                else [])
            ++ (if requiredPasses cfg.debug pm F.separable &&& Vertical ≠ 0 then
                  [.q F.height,
                   .q (ratioAndOffset cfg.dstDataWindow cfg.srcDataWindow).1.y,
                   .q (ratioAndOffset cfg.dstDataWindow cfg.srcDataWindow).2.y]
                else [])
            ++ [.sampler
                  (if requiredPasses cfg.debug pm F.separable = Vertical then
                    .horizontalPass else .input) ch
                  (inputRegion S t (requiredPasses cfg.debug pm F.separable)
                    (ratioAndOffset cfg.dstDataWindow cfg.srcDataWindow).1
                    (ratioAndOffset cfg.dstDataWindow cfg.srcDataWindow).2 F.width F.height)
                  cfg.boundingMode,
                .v2i t]))
    ∧ (∀ (table : List FilterDesc) (S : ℕ) (cfg : Config) (pm : Bool) (ch : String)
        (t t' : V2 ℤ) (tr tr' : List HashItem),
      hashChannelData table S cfg pm ch t = .ok tr →
      hashChannelData table S cfg pm ch t' = .ok tr' → tr = tr' → t = t')
    ∧ (∀ (table table' : List FilterDesc) (S S' : ℕ) (cfg cfg' : Config) (pm pm' : Bool)
        (ch ch' : String) (t t' : V2 ℤ) (tr : List HashItem) (F F' : Filter2D),
      createFilter table cfg.filterName cfg.filterWidth
          (ratioAndOffset cfg.dstDataWindow cfg.srcDataWindow).1 = .ok F →
      createFilter table' cfg'.filterName cfg'.filterWidth
          (ratioAndOffset cfg'.dstDataWindow cfg'.srcDataWindow).1 = .ok F' →
      hashChannelData table S cfg pm ch t = .ok tr →
      hashChannelData table' S' cfg' pm' ch' t' = .ok tr →
      F.name = F'.name) := by
  refine ⟨?_, ?_, ?_⟩
  · intro table S cfg pm ch t F hF
    exact hashChannelData_ok_eq table S cfg pm ch t F hF
  · intro table S cfg pm ch t t' tr tr' h1 h2 heq
    obtain ⟨F, hF⟩ := hashChannelData_ok_filter table S cfg pm ch t tr h1
    rw [hashChannelData_ok_eq table S cfg pm ch t F hF] at h1
    rw [hashChannelData_ok_eq table S cfg pm ch t' F hF] at h2
    injection h1 with h1
    injection h2 with h2
    rw [← h1, ← h2] at heq
    have h3 := congrArg List.reverse heq
    simp only [List.reverse_append, List.reverse_cons, List.reverse_nil, List.nil_append,
      List.cons_append, List.cons.injEq, HashItem.v2i.injEq] at h3
    exact h3.1
  · intro table table' S S' cfg cfg' pm pm' ch ch' t t' tr F F' hF hF' h1 h2
    rw [hashChannelData_ok_eq table S cfg pm ch t F hF] at h1
    rw [hashChannelData_ok_eq table' S' cfg' pm' ch' t' F' hF'] at h2
    injection h1 with h1
    injection h2 with h2
    have heq := h1.trans h2.symm
    have h3 := congrArg (fun l => l[1]?) heq
    simp only [List.cons_append, List.nil_append] at h3
    simp at h3
    exact h3

/-- Claim C4, witness: the trace of a concrete request, with the
horizontal-only items present and the vertical items absent. -/
theorem c4_hash_contents_order_witness :
    hashChannelData oiioFilters 1 c4CfgA true "R" ⟨0, 0⟩
      = .ok [HashItem.base, .str "lanczos3", .q 6, .q 1, .q 0,
          .sampler .input "R" ⟨⟨-3, 0⟩, ⟨4, 1⟩⟩ 0, .v2i ⟨0, 0⟩] := by
  rw [c4_hash_contents_order.1 oiioFilters 1 c4CfgA true "R" ⟨0, 0⟩
    ⟨"lanczos3", 6, 6, true⟩ (by with_unfolding_all decide)]
  with_unfolding_all decide

/-- For a target other than the main output plug, any non-SinglePass
debug mode requires exactly the horizontal pass. -/
theorem requiredPasses_intermediate (debug : DebugMode) (sep : Bool)
    (h : debug ≠ .singlePass) : requiredPasses debug false sep = Horizontal := by
  cases debug
  · rfl
  · rfl
  · exact absurd rfl h

/-- Claim C6 as amended: provided the filter name is explicitly set (so
the default-kernel choice cannot read the vertical ratio) and the debug
mode is not SinglePass, two configurations that differ only in
vertical-only inputs (vertical ratio, vertical offset, kernel support
height) give the intermediate horizontal-pass raster identical hashes;
and the horizontal-pass pixel data depends only on the kernel's width
and horizontal evaluation, the horizontal ratio and offset, and the
source samples.  With an empty filter name the property fails, since
the default kernel is chosen from both ratios. -/
theorem c6_horizontal_pass_independent_of_vertical_inputs :
    (∀ (table : List FilterDesc) (S : ℕ) (cfgA cfgB : Config) (ch : String) (t : V2 ℤ),
      cfgA.filterName = cfgB.filterName → cfgB.filterName ≠ "" →
      cfgA.filterWidth.x = cfgB.filterWidth.x →
      cfgA.boundingMode = cfgB.boundingMode →
      cfgA.debug = cfgB.debug → cfgB.debug ≠ .singlePass →
      cfgA.dstDataWindow.min.x = cfgB.dstDataWindow.min.x →
      cfgA.dstDataWindow.max.x = cfgB.dstDataWindow.max.x →
      cfgA.srcDataWindow.min.x = cfgB.srcDataWindow.min.x →
      cfgA.srcDataWindow.max.x = cfgB.srcDataWindow.max.x →
      hashChannelData table S cfgA false ch t = hashChannelData table S cfgB false ch t)
    ∧ (∀ (S : ℕ) (kA kB : Kernel) (rx offx ryA ryB oyA oyB : ℚ) (s : ℤ → ℤ → ℚ)
        (t : V2 ℤ),
      kA.width = kB.width → kA.xfilt = kB.xfilt →
      computeChannelData S Horizontal kA ⟨rx, ryA⟩ ⟨offx, oyA⟩ s t
        = computeChannelData S Horizontal kB ⟨rx, ryB⟩ ⟨offx, oyB⟩ s t) := by
  constructor
  · intro table S cfgA cfgB ch t hname hne hfwx hbm hdbg hnsp hd1 hd2 hs1 hs2
    have hrx : (ratioAndOffset cfgA.dstDataWindow cfgA.srcDataWindow).1.x
        = (ratioAndOffset cfgB.dstDataWindow cfgB.srcDataWindow).1.x := by
      simp [ratioAndOffset, dstWindowSize, srcWindowSize, hd1, hd2, hs1, hs2]
    have hox : (ratioAndOffset cfgA.dstDataWindow cfgA.srcDataWindow).2.x
        = (ratioAndOffset cfgB.dstDataWindow cfgB.srcDataWindow).2.x := by
      simp [ratioAndOffset, dstWindowSize, srcWindowSize, hd1, hd2, hs1, hs2]
    have hresolved : resolvedFilterName cfgA.filterName
          (ratioAndOffset cfgA.dstDataWindow cfgA.srcDataWindow).1
        = resolvedFilterName cfgB.filterName
          (ratioAndOffset cfgB.dstDataWindow cfgB.srcDataWindow).1 := by
      unfold resolvedFilterName
      rw [hname, if_neg hne, if_neg hne]
    simp only [hashChannelData, createFilter]
    rw [hresolved]
    cases hfind : table.find? (fun fd => fd.name == resolvedFilterName cfgB.filterName
        (ratioAndOffset cfgB.dstDataWindow cfgB.srcDataWindow).1) with
    | none => rfl
    | some fd =>
        have hpassA : requiredPasses cfgA.debug false fd.separable = Horizontal := by
          rw [hdbg]
          exact requiredPasses_intermediate _ _ hnsp
        have hpassB : requiredPasses cfgB.debug false fd.separable = Horizontal :=
          requiredPasses_intermediate _ _ hnsp
        have hH : (Horizontal &&& Horizontal ≠ 0) := by decide
        have hV : ¬(Horizontal &&& Vertical ≠ 0) := by decide
        have hSrc : ¬(Horizontal = Vertical) := by decide
        simp only [hpassA, hpassB, if_pos hH, if_neg hV, if_neg hSrc,
          inputRegion_horizontal]
        simp [hrx, hox, hbm, hfwx]
  · intro S kA kB rx offx ryA ryB oyA oyB s t hwidth hxf
    have hacc : accH kA rx offx s = accH kB rx offx s := by
      funext ox oy
      have hxw : xWeight kA rx offx = xWeight kB rx offx := by
        funext o f
        unfold xWeight
        rw [hxf]
      have hxr : xRadius kA rx = xRadius kB rx := by
        unfold xRadius
        rw [hwidth]
      unfold accH
      rw [hxr, hxw]
    have h1 : ¬(Horizontal = Both) := by decide
    simp only [computeChannelData, if_neg h1, eq_self_iff_true, if_true]
    rw [hacc]

/-- Claim C6, witness: two explicitly named lanczos3 configurations
differing only in the destination window's vertical extent hash the
intermediate raster identically, and the horizontal branch gives the
same pixels under changed vertical ratio/offset. -/
theorem c6_horizontal_pass_independent_witness :
    hashChannelData oiioFilters 1 c6CfgA' false "R" ⟨0, 0⟩
      = hashChannelData oiioFilters 1 c6CfgB' false "R" ⟨0, 0⟩
    ∧ computeChannelData 1 Horizontal boxKernel ⟨1, 2⟩ ⟨0, 3⟩ sampleLin ⟨0, 0⟩
      = computeChannelData 1 Horizontal boxKernel ⟨1, 5⟩ ⟨0, 7⟩ sampleLin ⟨0, 0⟩ :=
  ⟨c6_horizontal_pass_independent_of_vertical_inputs.1 oiioFilters 1 c6CfgA' c6CfgB'
      "R" ⟨0, 0⟩ rfl (by with_unfolding_all decide) rfl rfl rfl
      (by with_unfolding_all decide) rfl rfl rfl rfl,
   c6_horizontal_pass_independent_of_vertical_inputs.2 1 boxKernel boxKernel 1 0 2 5 3 7
      sampleLin ⟨0, 0⟩ rfl rfl⟩

end GafferImage
